import Mathlib

/-!
# Verification of the LatticeFold folding-scheme core

A shallow embedding, in Lean 4, of the cryptographic core of a lattice-based
folding scheme for CCS instances: the Ajtai commitment operator
(`commitment_scheme.rs`), the per-ring challenge-set derivation (`pbb.rs`),
the multilinear-sumcheck subprotocol (`utils/sumcheck.rs`) and the folding
prover/verifier (`nifs/folding.rs`).

Modelling conventions:

* The NTT-form ring `NTT` is modelled by a commutative ring `R` (a field where
  the sumcheck verifier's Lagrange interpolation needs division).  The
  coefficient-form ring `CR` is a second type together with a `crt : CR → R`
  conversion carried by the transcript interface.
* `Vec<T>` becomes `List T`; Rust iterator `zip` (which truncates to the
  shorter operand) becomes `List.zip`.
* Fallible Rust functions returning `Result` become `Except`; functions that
  can panic (`expect`, `unwrap`, out-of-bounds indexing) return `Option` of
  their result, with `none` for a panic.
* RNGs are modelled as explicit streams: a sampling function together with a
  state threaded through.
* Code of the repository that lives outside the available sources (the
  sumcheck round internals, the `nifs/folding/utils.rs` helpers, the Poseidon
  transcript) is modelled from the specification; each such definition says so
  in its doc comment.
-/

namespace LatticeFold

/-! ## Errors of the commitment scheme (`commitment/error.rs`) -/

/-- Error taxonomy of the Ajtai commitment layer. -/
inductive CommitmentError where
  | wrongWitnessLength (got expected : ℕ)
  | wrongAjtaiMatrixDimensions (rows cols expRows expCols : ℕ)
  deriving DecidableEq, Repr

/-! ## The Ajtai commitment scheme (`commitment/commitment_scheme.rs`) -/

section CommitmentDefs

variable {R : Type} [CommRing R]

/-- `AjtaiCommitmentScheme::rand(rng)` from `commitment_scheme.rs`:
the body is `vec![vec![NTT::rand(rng); W]; C]`.  The Rust `vec![expr; n]`
macro evaluates `expr` once and clones the value, so the expression draws a
single ring element from the rng and fills all `C·W` entries with it.
`sample` models `NTT::rand` over an rng state type `σ`. -/
def ajtai_rand {σ : Type} (Crows W : ℕ) (sample : σ → R × σ) (rng : σ) :
    List (List R) × σ :=
  let (x, rng') := sample rng
  (List.replicate Crows (List.replicate W x), rng')

/-- `AjtaiCommitmentScheme::commit_ntt` from `commitment_scheme.rs`:
length check, then `commitment[i] = Σ_j matrix[i][j] * f[j]` where the
commitment starts as `vec![0; C]` and is filled row by row (rows beyond the
matrix length stay `0`, matrix rows beyond `C` are ignored — both zips
truncate). -/
def commit_ntt (matrix : List (List R)) (Crows W : ℕ) (f : List R) :
    Except CommitmentError (List R) :=
  if f.length ≠ W then
    .error (.wrongWitnessLength f.length W)
  else
    .ok ((List.range Crows).map (fun i =>
      match matrix.get? i with
      | some row => ((row.zip f).map (fun p => p.1 * p.2)).sum
      | none => 0))

/-- The `C = 9`, `W = 2^15` Ajtai matrix of scenario S1, with entries
`M[i][j] = i·W + j` embedded in the ring (for `R = ZMod q` this is
`(i·W + j) mod q`, as in `generate_ajtai` in `commitment_scheme.rs`). -/
def s1_matrix (R : Type) [CommRing R] : List (List R) :=
  (List.range 9).map (fun i =>
    (List.range (2 ^ 15)).map (fun j => ((i * 2 ^ 15 + j : ℕ) : R)))

end CommitmentDefs

/-! ## The challenge set of the Baby-Bear-like ring (`cyclotomic-rings/src/rings/pbb.rs`) -/

/-- The Baby-Bear-like prime `pBB = 15 · 2^27 + 1`. -/
def pbbQ : ℕ := 15 * 2 ^ 27 + 1

/-- The byte-to-bit conversion inside `PBBCyclotomicRing::get_challenge_set`:
for each byte, the 8 bits are pushed most-significant first
(`(byte >> (7 - i)) & 1` for `i = 0, …, 7`). -/
def pbb_challenge_bits (bytes : List ℕ) : List (ZMod pbbQ) :=
  (bytes.map (fun byte =>
    (List.range 8).map (fun i => ((byte / 2 ^ (7 - i) % 2 : ℕ) : ZMod pbbQ)))).flatten

/-- `PBBCyclotomicRing::get_challenge_set`.  The function takes **no** seed: it
fills a 15-byte buffer from `rand::thread_rng()` on every call and converts the
bytes to bits.  The thread rng is modelled as an explicit byte stream `rng`
with a current position `pos`: one call consumes the 15 bytes
`rng pos, …, rng (pos+14)` (each reduced mod 256, the `u8` range) and advances
the position by 15. -/
def pbb_get_challenge_set (rng : ℕ → ℕ) (pos : ℕ) : List (ZMod pbbQ) × ℕ :=
  (pbb_challenge_bits ((List.range 15).map (fun k => rng (pos + k) % 256)), pos + 15)

/-! ## The Fiat–Shamir transcript (`transcript.rs`)

The `Transcript` trait exposes `absorb`, `absorb_slice`, `get_challenge(s)`;
`TranscriptWithSmallChallenges` adds `get_small_challenge(s)`.  The Poseidon
implementation is external, so the transcript is modelled from the spec
(§4.1): a deterministic state machine whose challenges depend only on the
prior absorbs.  `crt` models the external `CR → NTT` conversion used on short
challenges. -/

/-- Operations of a deterministic Fiat–Shamir transcript over a state `S`:
full-ring absorption, full challenges, short (coefficient-representation)
challenges, and the CRT map on short challenges. -/
structure TranscriptOps (R CR S : Type) where
  absorb : S → R → S
  squeeze : S → R × S
  squeezeShort : S → CR × S
  crt : CR → R

section SumcheckDefs

variable {R CR S : Type} [CommRing R]

/-- `Transcript::absorb_slice`: absorb the elements in order. -/
def absorbSlice (tr : TranscriptOps R CR S) (st : S) (l : List R) : S :=
  l.foldl tr.absorb st

/-- `Transcript::get_challenges(n)`: `n` consecutive full challenges. -/
def squeezeN (tr : TranscriptOps R CR S) : ℕ → S → List R × S
  | 0, st => ([], st)
  | n + 1, st =>
    let c := tr.squeeze st
    let rest := squeezeN tr n c.2
    (c.1 :: rest.1, rest.2)

/-- `TranscriptWithSmallChallenges::get_small_challenges(n)`. -/
def squeezeShortN (tr : TranscriptOps R CR S) : ℕ → S → List CR × S
  | 0, st => ([], st)
  | n + 1, st =>
    let c := tr.squeezeShort st
    let rest := squeezeShortN tr n c.2
    (c.1 :: rest.1, rest.2)

/-! ## The multilinear sumcheck (`utils/sumcheck.rs`)

`prove_as_subprotocol` and `verify_as_subprotocol` are in the sources; the
round internals (`prover_init`, `prove_round`, `verify_round`,
`check_and_generate_subclaim`, the univariate interpolation) are in modules
outside the sources and are modelled from the spec (§4.3).  The virtual
polynomial `g` is modelled extensionally as an evaluation function
`List R → R` on points of `R^nvars`; its round polynomial is the partial
hypercube sum in the free coordinate. -/

/-- Errors of the sumcheck verifier (`SumCheckError` in `utils/sumcheck.rs`). -/
inductive SumCheckError (R : Type) where
  | evaluationError
  | sumCheckFailed (expected received : R)
  | maxDegreeExceeded
  deriving DecidableEq

/-- Sum of `f` over all `{0,1}`-valued lists of length `k` (the Boolean
hypercube embedded in the ring). -/
def sumOverBool : ℕ → (List R → R) → R
  | 0, f => f []
  | k + 1, f => sumOverBool k (fun bs => f (0 :: bs)) + sumOverBool k (fun bs => f (1 :: bs))

/-- Modelled from the spec (§4.3, prover step 3): the round polynomial after
the challenges `rs` have been fixed — `p(t) = Σ_{x ∈ {0,1}^{n−|rs|−1}}
g(rs, t, x)` — evaluated at `t`. -/
def roundPolyEval (n : ℕ) (g : List R → R) (rs : List R) (t : R) : R :=
  sumOverBool (n - rs.length - 1) (fun bs => g (rs ++ t :: bs))

/-- The sumcheck invariant quantity: the sum of `g` over the sub-cube left
after fixing the challenges `rs`. -/
def subcubeSum (n : ℕ) (g : List R → R) (rs : List R) : R :=
  sumOverBool (n - rs.length) (fun bs => g (rs ++ bs))

/-- Modelled from the spec (§4.3): the prover message of one round, the `d+1`
evaluations of the round polynomial at `0, 1, …, d`. -/
def roundMessage (n d : ℕ) (g : List R → R) (rs : List R) : List R :=
  (List.range (d + 1)).map (fun j : ℕ => roundPolyEval n g rs (j : R))

/-- The sumcheck prover loop of `prove_as_subprotocol`: in each round, absorb
the round message, squeeze one challenge, absorb it back (line
`transcript.absorb(&next_verifier_msg.randomness.into())`), and recurse with
the challenge appended.  Returns the messages, the randomness and the final
transcript state. -/
def sumcheckProveLoop (tr : TranscriptOps R CR S) (n d : ℕ) (g : List R → R) :
    ℕ → S → List R → List (List R) × List R × S
  | 0, st, _ => ([], [], st)
  | k + 1, st, rs =>
    let m := roundMessage n d g rs
    let st1 := absorbSlice tr st m
    let c := tr.squeeze st1
    let st3 := tr.absorb c.2 c.1
    let rest := sumcheckProveLoop tr n d g k st3 (rs ++ [c.1])
    (m :: rest.1, c.1 :: rest.2.1, rest.2.2)

/-- `MLSumcheck::prove_as_subprotocol`: absorb `nvars` and `degree` as ring
elements, run `nvars` rounds.  When `nvars = 0` the trailing
`verifier_msg.unwrap()` panics (`none`). -/
def sumcheckProve (tr : TranscriptOps R CR S) (st : S) (n d : ℕ) (g : List R → R) :
    Option (List (List R) × List R × S) :=
  let st1 := tr.absorb st (n : R)
  let st2 := tr.absorb st1 (d : R)
  if n = 0 then none
  else some (sumcheckProveLoop tr n d g n st2 [])

/-- The verifier loop of `verify_as_subprotocol`: for each of the `nvars`
rounds, take the next prover message (`proof.0.get(i).expect("proof is
incomplete")` — a panic, modelled as `none`, when the proof has fewer
messages), absorb it, squeeze the round challenge, absorb it back. -/
def sumcheckVerifyLoop (tr : TranscriptOps R CR S) :
    ℕ → S → List (List R) → Option (List R × S)
  | 0, st, _ => some ([], st)
  | _ + 1, _, [] => none
  | k + 1, st, m :: rest =>
    let st1 := absorbSlice tr st m
    let c := tr.squeeze st1
    let st3 := tr.absorb c.2 c.1
    match sumcheckVerifyLoop tr k st3 rest with
    | none => none
    | some p => some (c.1 :: p.1, p.2)

end SumcheckDefs

section SumcheckFieldDefs

variable {R CR S : Type} [Field R] [DecidableEq R]

/-- Modelled from the spec (§4.3, "Round polynomial evaluation"): Lagrange
interpolation of a round polynomial from its values at `0, 1, …, d`, evaluated
at the challenge `x`. -/
def lagrangeEval (evals : List R) (x : R) : R :=
  ∑ i ∈ Finset.range evals.length,
    evals.getD i 0 * ∏ j ∈ (Finset.range evals.length).erase i,
      (((i : R) - (j : R))⁻¹ * (x - (j : R)))

/-- Modelled from the spec (§4.3, verifier): `check_and_generate_subclaim`.
Starting from the claimed sum, each round message must have exactly `d+1`
evaluations (else `MaxDegreeExceeded`), its values at `0` and `1` must add to
the running claim (else `SumCheckFailed`), and the claim is updated to the
interpolated value at the round challenge.  Returns the final expected
evaluation. -/
def sumcheckCheckLoop (d : ℕ) :
    List (List R) → List R → R → Except (SumCheckError R) R
  | [], _, expected => .ok expected
  | _ :: _, [], expected => .ok expected
  | m :: ms, r :: rands, expected =>
    if m.length ≠ d + 1 then .error .maxDegreeExceeded
    else if m.getD 0 0 + m.getD 1 0 ≠ expected then
      .error (.sumCheckFailed expected (m.getD 0 0 + m.getD 1 0))
    else sumcheckCheckLoop d ms rands (lagrangeEval m r)

/-- `MLSumcheck::verify_as_subprotocol`: absorb `nvars` and `degree`, run the
verifier loop (`none` = the "proof is incomplete" panic), then check the
claims chain and produce the subclaim `(point, expected_evaluation)`. -/
def sumcheckVerify (tr : TranscriptOps R CR S) (st : S) (n d : ℕ) (claimed : R)
    (msgs : List (List R)) :
    Option (S × Except (SumCheckError R) (List R × R)) :=
  let st1 := tr.absorb st (n : R)
  let st2 := tr.absorb st1 (d : R)
  match sumcheckVerifyLoop tr n st2 msgs with
  | none => none
  | some p =>
    some (p.2, (sumcheckCheckLoop d (msgs.take n) p.1 claimed).map
      (fun ev => (p.1, ev)))

end SumcheckFieldDefs

/-! ## The folding protocol (`nifs/folding.rs`)

The data model (§3) and the prover/verifier orchestration are embedded from
the sources.  MLEs (`DenseMultilinearExtension`) are modelled extensionally as
evaluation functions `List R → R`.  The helpers that live in the missing
module `nifs/folding/utils.rs` (`create_sumcheck_polynomial`,
`compute_sumcheck_claim_expected_value`, `compute_v0_u0_x0_cm_0`, `get_rhos`,
`eq_eval`) are modelled from the spec; where the spec gives no closed formula
(the composition of the `g` polynomial from the CCS structure, and the
verifier's expected-evaluation recombination) the embedding is parameterised
by those two functions (`gBuilder`, `expectedValFn`). -/

/-- `CSError::InvalidSizeBounds` (from `arith/error.rs`, outside the sources;
modelled from its use in `sanity_check`). -/
inductive CSError where
  | invalidSizeBounds (m n L : ℕ)
  deriving DecidableEq, Repr

/-- `FoldingError` (from `nifs/error.rs`, outside the sources; modelled from
the spec's failure-mode list §4.4 and the variants used in `folding.rs`). -/
inductive FoldingError (R : Type) where
  | incorrectLength
  | sumCheckError (e : SumCheckError R)
  | constraintSystem (e : CSError)
  deriving DecidableEq

/-- The CCS shape fields used by the folding layer (§3): number of
constraints `m`, witness length `n`, public-input length `l`, and
`s = log2(m)`, the number of sumcheck variables. -/
structure CCS where
  m : ℕ
  n : ℕ
  l : ℕ
  s : ℕ
  deriving DecidableEq, Repr

/-- `DecompositionParams` (`P::K`, `P::B`, `P::L`, `P::B_SMALL`). -/
structure DecompositionParams where
  K : ℕ
  B : ℕ
  L : ℕ
  B_SMALL : ℕ
  deriving DecidableEq, Repr

/-- A linearized CCS instance `LCCCS<C, NTT>` (§3). -/
structure LCCCS (R : Type) where
  r : List R
  v : List R
  cm : List R
  u : List R
  x_w : List R
  h : R
  deriving DecidableEq

/-- The all-empty `LCCCS` value, used as a `getD` default when indexing
instance lists. -/
def defaultLCCCS (R : Type) [CommRing R] : LCCCS R :=
  { r := [], v := [], cm := [], u := [], x_w := [], h := 0 }

/-- `Witness<NTT>`: the coefficient vector `f` and the `f_hat` MLE table
(one MLE per decomposition limb group, modelled extensionally). -/
structure Witness (R : Type) where
  f : List R
  f_hat : List (List R → R)

/-- `FoldingProof<NTT>`: the sumcheck messages plus the θ and η matrices. -/
structure FoldingProof (R : Type) where
  pointshift_sumcheck_proof : List (List R)
  theta_s : List (List R)
  eta_s : List (List R)
  deriving DecidableEq

/-- Rust `usize::next_power_of_two`: the smallest power of two `≥ n`
(`1` for `n = 0`).  Computed by doubling from `1`; `n` doubling steps always
suffice since `2^n ≥ n` for every `n`. -/
def nextPowerOfTwo (n : ℕ) : ℕ :=
  (List.range n).foldl (fun acc _ => if acc < n then acc * 2 else acc) 1

/-- `sanity_check` from `nifs/folding.rs`:
`ccs.m == max((ccs.n − ccs.l − 1)·L, ccs.m).next_power_of_two()`, else
`InvalidSizeBounds(m, n, L)`. -/
def sanity_check {R : Type} (P : DecompositionParams) (ccs : CCS) :
    Except (FoldingError R) Unit :=
  if ccs.m ≠ nextPowerOfTwo (max ((ccs.n - ccs.l - 1) * P.L) ccs.m) then
    .error (.constraintSystem (.invalidSizeBounds ccs.m ccs.n P.L))
  else .ok ()

section FoldingDefs

variable {R CR S : Type} [CommRing R]

/-- Pointwise sum of two MLEs (`+=` on `DenseMultilinearExtension`). -/
def mleAdd (f g : List R → R) : List R → R := fun x => f x + g x

/-- Pointwise scalar multiple of an MLE (`*=` by a ring element). -/
def mleScale (c : R) (f : List R → R) : List R → R := fun x => c * f x

/-- `LFFoldingProver::calculate_challenged_mz_mle` from `nifs/folding.rs`:
for each pair `(ζ_i, Mz_mles_i)` of the (truncating) zip, run the loop
`mle = 0; for M in Mz_mles_i.rev() { mle += M; mle *= ζ_i }` and accumulate
`combined_mle += mle`. -/
def calculate_challenged_mz_mle (Mz_mles_vec : List (List (List R → R)))
    (zeta_s : List R) : List R → R :=
  (zeta_s.zip Mz_mles_vec).foldl
    (fun combined p =>
      mleAdd combined (p.2.foldr (fun M mle => mleScale p.1 (mleAdd mle M)) (fun _ => 0)))
    (fun _ => 0)

/-- The running scheme of Rust's
`successors(Some(a), |x| Some(x * a)).zip(l).map(|(p, y)| p * y).sum()`:
`powSum a cur l = cur·l₀ + cur·a·l₁ + cur·a²·l₂ + …` (the stream of powers is
infinite, so the zip truncates to `l`). -/
def powSum (a : R) : R → List R → R
  | _, [] => 0
  | cur, x :: xs => cur * x + powSum a (cur * a) xs

/-- `LFFoldingVerifier::calculate_claims` from `nifs/folding.rs`:
`claim_g1 = Σ_i Σ_j α_i^{j+1} · v_i[j]` and
`claim_g3 = Σ_i Σ_j ζ_i^{j+1} · u_i[j]`, both via the `successors` power
stream and truncating zips. -/
def calculate_claims (alpha_s zeta_s : List R) (cm_i_s : List (LCCCS R)) :
    R × R :=
  (((alpha_s.zip (cm_i_s.map LCCCS.v)).map (fun p => powSum p.1 p.1 p.2)).sum,
   ((zeta_s.zip (cm_i_s.map LCCCS.u)).map (fun p => powSum p.1 p.1 p.2)).sum)

/-- Modelled from the spec (§4.5):
`eq_eval(a, b) = Π_k (a_k·b_k + (1−a_k)·(1−b_k))`. -/
def eq_eval (a b : List R) : R :=
  ((a.zip b).map (fun p => p.1 * p.2 + (1 - p.1) * (1 - p.2))).prod

/-- Scale a vector by a ring element. -/
def scaleVec (c : R) (v : List R) : List R := v.map (fun x => c * x)

/-- Pointwise sum of a list of equal-length vectors (empty input gives the
empty vector). -/
def sumVecs : List (List R) → List R
  | [] => []
  | h :: t => t.foldl (fun a b => List.zipWith (fun x y => x + y) a b) h

/-- Modelled from the spec (§4.4.1 step 7): the ρ-recombination
`v_0 = Σ ρ_i·θ_i`, `cm_0 = Σ ρ_i·cm_i`, `u_0 = Σ ρ_i·η_i`,
`x_0 = Σ ρ_i·x_i` where the full public vector of an instance is
`x_w ++ [h]` (§3: `h` is split off the tail of the longer `x` vector).
Short challenges pass through the CRT map first. -/
def compute_v0_u0_x0_cm_0 (crt : CR → R) (rho_s : List CR)
    (theta_s : List (List R)) (cm_i_s : List (LCCCS R)) (eta_s : List (List R)) :
    List R × List R × List R × List R :=
  let rr := rho_s.map crt
  (sumVecs ((rr.zip theta_s).map (fun p => scaleVec p.1 p.2)),
   sumVecs ((rr.zip cm_i_s).map (fun p => scaleVec p.1 p.2.cm)),
   sumVecs ((rr.zip eta_s).map (fun p => scaleVec p.1 p.2)),
   sumVecs ((rr.zip cm_i_s).map (fun p => scaleVec p.1 (p.2.x_w ++ [p.2.h]))))

/-- Modelled from the spec (§4.5): `get_rhos` squeezes `K` short challenges. -/
def get_rhos (tr : TranscriptOps R CR S) (P : DecompositionParams) (st : S) :
    List CR × S :=
  squeezeShortN tr P.K st

/-- Modelled from the spec (§4.1): `squeeze_alpha_beta_zeta_mu(log_m)` is four
consecutive `squeeze_challenges` calls of lengths `2K`, `log_m`, `2K`, `K`,
in that order. -/
def squeeze_alpha_beta_zeta_mu (tr : TranscriptOps R CR S)
    (P : DecompositionParams) (log_m : ℕ) (st : S) :
    (List R × List R × List R × List R) × S :=
  let a := squeezeN tr (2 * P.K) st
  let b := squeezeN tr log_m a.2
  let z := squeezeN tr (2 * P.K) b.2
  let mu := squeezeN tr P.K z.2
  ((a.1, b.1, z.1, mu.1), mu.2)

end FoldingDefs

section FoldingProtocolDefs

variable {R CR S : Type} [Field R] [DecidableEq R]
variable (tr : TranscriptOps R CR S)
variable (gBuilder : ℕ → List (List (List R → R)) → List R → (List R → R) →
  (List R → R) → List (List R) → List R → List R → (List R → R))
variable (expectedValFn : List R → List R → List (List R) → R → List R →
  List R → List (List R) → R)
variable (fromFHat : List R → List (List R → R))

/-- The `g` polynomial the folding prover hands to the sumcheck: the
`create_sumcheck_polynomial` parameter `gBuilder` applied to `log_m = ccs.s`,
the `f_hat` MLE table of the witnesses, `α`, the two Horner-prechallenged `Mz`
combinations `M1`/`M2` (first and second `K`-halves of `mz_mles` and `ζ`),
the `r_i` points of the instances, `β` and `μ` — exactly the arguments
`LFFoldingProver::prove` passes. -/
def foldingG (P : DecompositionParams) (ccs : CCS) (w_s : List (Witness R))
    (mz_mles : List (List (List R → R))) (cm_i_s : List (LCCCS R))
    (alpha_s beta_s zeta_s mu_s : List R) : List R → R :=
  gBuilder ccs.s (w_s.map Witness.f_hat) alpha_s
    (calculate_challenged_mz_mle (mz_mles.take P.K) (zeta_s.take P.K))
    (calculate_challenged_mz_mle ((mz_mles.drop P.K).take P.K)
      ((zeta_s.drop P.K).take P.K))
    (cm_i_s.map LCCCS.r) beta_s mu_s

/-- `LFFoldingProver::prove` from `nifs/folding.rs`, in source order:
sanity check; `|cm_i_s| = 2K` check; squeeze `(α, β, ζ, μ)`; take the
`f_hat` MLEs out of the witnesses; slice `mz_mles` into the two halves
(a Rust slice-index panic, `none`, if `mz_mles` is shorter than `2K`);
build `g` (`create_sumcheck_polynomial` is outside the sources — it is the
parameter `gBuilder`, with `nvars = ccs.s` and degree `2·B_SMALL` per spec
§4.4.1 step 2); run the sumcheck prover; evaluate θ and η at `r_0`; absorb
θ then η; squeeze the short ρ challenges; recombine; split off `h`
(`IncorrectLength` if the `x_0` vector is empty); fold the witnesses into
`f_0` (a panic, `none`, when `w_s` is empty, from `w_s[0]`); return the
folded LCCCS, witness and proof.  `Witness::from_f` is outside the sources
and is the parameter `fromFHat`. -/
def folding_prove (P : DecompositionParams) (cm_i_s : List (LCCCS R))
    (w_s : List (Witness R)) (st : S) (ccs : CCS)
    (mz_mles : List (List (List R → R))) :
    Option (Except (FoldingError R) (LCCCS R × Witness R × FoldingProof R × S)) :=
  match sanity_check (R := R) P ccs with
  | .error e => some (.error e)
  | .ok _ =>
  if cm_i_s.length ≠ 2 * P.K then some (.error .incorrectLength)
  else
    let ch := squeeze_alpha_beta_zeta_mu tr P ccs.s st
    let alpha_s := ch.1.1
    let beta_s := ch.1.2.1
    let zeta_s := ch.1.2.2.1
    let mu_s := ch.1.2.2.2
    let f_hat_mles := w_s.map Witness.f_hat
    let ris := cm_i_s.map LCCCS.r
    if mz_mles.length < 2 * P.K then none
    else
      let g := foldingG gBuilder P ccs w_s mz_mles cm_i_s alpha_s beta_s zeta_s mu_s
      match sumcheckProve tr ch.2 ccs.s (2 * P.B_SMALL) g with
      | none => none
      | some sc =>
        let r_0 := sc.2.1
        let theta_s := f_hat_mles.map (fun row => row.map (fun mle => mle r_0))
        let eta_s := mz_mles.map (fun row => row.map (fun mle => mle r_0))
        let st3 := eta_s.foldl (absorbSlice tr) (theta_s.foldl (absorbSlice tr) sc.2.2)
        let rh := get_rhos tr P st3
        let vux := compute_v0_u0_x0_cm_0 tr.crt rh.1 theta_s cm_i_s eta_s
        match (vux.2.2.2).getLast? with
        | none => some (.error .incorrectLength)
        | some h =>
          match w_s with
          | [] => none
          | w0 :: _ =>
            let f_0 := (rh.1.zip w_s).foldl
              (fun acc p => List.zipWith (fun a wj => a + tr.crt p.1 * wj) acc p.2.f)
              (List.replicate w0.f.length 0)
            some (.ok
              ({ r := r_0, v := vux.1, cm := vux.2.1, u := vux.2.2.1,
                 x_w := (vux.2.2.2).dropLast, h := h },
               { f := f_0, f_hat := fromFHat f_0 },
               { pointshift_sumcheck_proof := sc.1, theta_s := theta_s,
                 eta_s := eta_s },
               rh.2))

/-- `LFFoldingVerifier::verify` from `nifs/folding.rs`, in source order:
sanity check; squeeze `(α, β, ζ, μ)`; recompute the claims from `cm_i_s`;
verify the sumcheck against `claim_g1 + claim_g3` with degree `2·B_SMALL`
(`none` = panic on an incomplete proof); recompute the expected evaluation
(`compute_sumcheck_claim_expected_value` is outside the sources — it is the
parameter `expectedValFn`, applied to `(α, μ, θ, e*, e_s, ζ, η)` per spec
§4.4.2 step 5) and compare, failing with `SumCheckFailed`; absorb θ then η;
squeeze ρ; recombine and split off `h` (`IncorrectLength` if `x_0` is
empty).  Also returns the final transcript state. -/
def folding_verify (P : DecompositionParams) (cm_i_s : List (LCCCS R))
    (proof : FoldingProof R) (st : S) (ccs : CCS) :
    Option (Except (FoldingError R) (LCCCS R × S)) :=
  match sanity_check (R := R) P ccs with
  | .error e => some (.error e)
  | .ok _ =>
    let ch := squeeze_alpha_beta_zeta_mu tr P ccs.s st
    let alpha_s := ch.1.1
    let beta_s := ch.1.2.1
    let zeta_s := ch.1.2.2.1
    let mu_s := ch.1.2.2.2
    let claims := calculate_claims alpha_s zeta_s cm_i_s
    match sumcheckVerify tr ch.2 ccs.s (2 * P.B_SMALL) (claims.1 + claims.2)
        proof.pointshift_sumcheck_proof with
    | none => none
    | some scv =>
      match scv.2 with
      | .error e => some (.error (.sumCheckError e))
      | .ok sub =>
        let r_0 := sub.1
        let ris := cm_i_s.map LCCCS.r
        let e_ast := eq_eval beta_s r_0
        let e_s := ris.map (fun ri => eq_eval ri r_0)
        let should := expectedValFn alpha_s mu_s proof.theta_s e_ast e_s zeta_s
          proof.eta_s
        if should ≠ sub.2 then
          some (.error (.sumCheckError (.sumCheckFailed should sub.2)))
        else
          let st3 := proof.eta_s.foldl (absorbSlice tr)
            (proof.theta_s.foldl (absorbSlice tr) scv.1)
          let rh := get_rhos tr P st3
          let vux := compute_v0_u0_x0_cm_0 tr.crt rh.1 proof.theta_s cm_i_s
            proof.eta_s
          match (vux.2.2.2).getLast? with
          | none => some (.error .incorrectLength)
          | some h =>
            some (.ok
              ({ r := r_0, v := vux.1, cm := vux.2.1, u := vux.2.2.1,
                 x_w := (vux.2.2.2).dropLast, h := h }, rh.2))

end FoldingProtocolDefs

/-- A concrete deterministic transcript over `ℚ` with a counter state, used to
evaluate the protocol definitions at concrete inputs. -/
def natTranscript : TranscriptOps ℚ ℚ ℕ where
  absorb := fun s _ => s + 1
  squeeze := fun s => ((s : ℚ), s + 1)
  squeezeShort := fun s => ((s : ℚ), s + 1)
  crt := id

/-- A concrete `create_sumcheck_polynomial` instantiation: the zero
polynomial. -/
def zeroGBuilder : ℕ → List (List (List ℚ → ℚ)) → List ℚ → (List ℚ → ℚ) →
    (List ℚ → ℚ) → List (List ℚ) → List ℚ → List ℚ → (List ℚ → ℚ) :=
  fun _ _ _ _ _ _ _ _ => fun _ => 0

/-- A concrete `compute_sumcheck_claim_expected_value` instantiation matching
`zeroGBuilder`: constantly zero. -/
def zeroExpectedValFn : List ℚ → List ℚ → List (List ℚ) → ℚ → List ℚ →
    List ℚ → List (List ℚ) → ℚ :=
  fun _ _ _ _ _ _ _ => 0

/-- A concrete `Witness::from_f` instantiation with an empty `f_hat` table. -/
def emptyFromFHat : List ℚ → List (List ℚ → ℚ) := fun _ => []

/-! # Theorems -/

/-! ## List helpers -/

/-- Sum of `f` over the element-wise zip of two lists, rewritten as a
`Finset.range` sum over the truncated (minimum) length.  This is the semantics
of Rust's `iter().zip(...)` followed by `map`/`sum`. -/
theorem zip_map_sum {α β R : Type} [AddCommMonoid R] (f : α → β → R) (da : α) (db : β) :
    ∀ (a : List α) (b : List β),
      ((a.zip b).map (fun p => f p.1 p.2)).sum =
        ∑ j ∈ Finset.range (min a.length b.length), f (a.getD j da) (b.getD j db)
  | [], _ => by simp
  | _ :: _, [] => by simp
  | x :: as, y :: bs => by
    have ih := zip_map_sum f da db as bs
    simp only [List.zip_cons_cons, List.map_cons, List.sum_cons, List.length_cons,
      Nat.succ_min_succ, Finset.sum_range_succ', List.getD_cons_succ, List.getD_cons_zero]
    rw [ih, add_comm]

/-- `getD` of a mapped range list below the length is just the function value. -/
theorem getD_map_range {R : Type} (n i : ℕ) (f : ℕ → R) (d : R) (hi : i < n) :
    ((List.range n).map f).getD i d = f i := by
  rw [List.getD_eq_getElem?_getD]
  simp [List.getElem?_map, List.getElem?_range hi]

/-- `getD` of a replicated list below the length is the replicated element. -/
theorem getD_replicate' {R : Type} (n i : ℕ) (x d : R) (hi : i < n) :
    (List.replicate n x).getD i d = x := by
  rw [List.getD_eq_getElem?_getD, List.getElem?_replicate]
  simp [hi]

/-! ## Commitment theorems -/

section CommitmentThms

variable {R : Type} [CommRing R]

/-- The `rand` matrix is constant: every entry equals the single sampled
element. -/
theorem ajtai_rand_entries_all_equal {σ : Type} (Crows W : ℕ) (sample : σ → R × σ)
    (rng : σ) (i j : ℕ) (hi : i < Crows) (hj : j < W) :
    ((ajtai_rand Crows W sample rng).1.getD i []).getD j (0 : R) =
      (sample rng).1 := by
  unfold ajtai_rand
  rcases h : sample rng with ⟨x, rng'⟩
  simp only
  have houter : (List.replicate Crows (List.replicate W x)).getD i [] =
      List.replicate W x := by
    rw [List.getD_eq_getElem?_getD, List.getElem?_replicate]
    simp [hi]
  rw [houter, List.getD_eq_getElem?_getD, List.getElem?_replicate]
  simp [hj]

/-- Behaviour of `commit_ntt` on a well-formed `C×W` Ajtai matrix: on a
length-`W` input it returns the length-`C` commitment with coordinates
`Σ_j M[i][j] · f[j]`, on any other length it fails with
`WrongWitnessLength(got, W)`. -/
theorem commit_ntt_spec (matrix : List (List R)) (Crows W : ℕ) (f : List R)
    (hM : matrix.length = Crows) (hrows : ∀ row ∈ matrix, row.length = W) :
    (f.length = W →
      commit_ntt matrix Crows W f =
        .ok ((List.range Crows).map (fun i =>
          ∑ j ∈ Finset.range W, (matrix.getD i []).getD j 0 * f.getD j 0)))
    ∧ (f.length ≠ W →
      commit_ntt matrix Crows W f = .error (.wrongWitnessLength f.length W)) := by
  constructor
  · intro hf
    unfold commit_ntt
    rw [if_neg (by simp [hf])]
    congr 1
    apply List.map_congr_left
    intro i hi
    rw [List.mem_range] at hi
    have hilen : i < matrix.length := by omega
    have hget : matrix.get? i = some (matrix.getD i []) := by
      rw [List.get?_eq_getElem?, List.getElem?_eq_getElem hilen,
        List.getD_eq_getElem?_getD, List.getElem?_eq_getElem hilen]
      rfl
    rw [hget]
    have hrowmem : matrix.getD i [] ∈ matrix := by
      rw [List.getD_eq_getElem?_getD, List.getElem?_eq_getElem hilen]
      exact List.getElem_mem _
    have hrowlen : (matrix.getD i []).length = W := hrows _ hrowmem
    simp only
    rw [zip_map_sum (fun a b => a * b) 0 0, hrowlen, hf, min_self]
  · intro hf
    unfold commit_ntt
    rw [if_pos (by simpa using hf)]

/-- Closed form of one S1 coordinate sum:
`Σ_{j<W} (i·W + j)·2 = W·(2·i·W + (W−1))` over `ℕ`. -/
theorem s1_nat_sum (i W : ℕ) :
    ∑ j ∈ Finset.range W, (i * W + j) * 2 = W * (2 * i * W + (W - 1)) := by
  have hgauss := Finset.sum_range_id_mul_two W
  calc ∑ j ∈ Finset.range W, (i * W + j) * 2
      = ∑ j ∈ Finset.range W, (i * W * 2 + j * 2) := by
        apply Finset.sum_congr rfl; intro j _; ring
    _ = (∑ _j ∈ Finset.range W, i * W * 2) + (∑ j ∈ Finset.range W, j) * 2 := by
        rw [Finset.sum_add_distrib, Finset.sum_mul]
    _ = W * (i * W * 2) + W * (W - 1) := by
        rw [Finset.sum_const, Finset.card_range, hgauss, smul_eq_mul]
    _ = W * (2 * i * W + (W - 1)) := by
        rw [Nat.mul_add]; ring_nf

end CommitmentThms

/-! ## Challenge-set theorems -/

/-- Indexing a flattened list of uniformly-length-8 blocks. -/
theorem flatten_getD_of_blocks {α : Type} (d : α) :
    ∀ (l : List (List α)) (k i : ℕ), (∀ x ∈ l, x.length = 8) → k < l.length → i < 8 →
      l.flatten.getD (8 * k + i) d = (l.getD k []).getD i d
  | [], k, _, _, hk, _ => by simp at hk
  | x :: xs, 0, i, h8, _, hi => by
    have hx : x.length = 8 := h8 x (by simp)
    simp only [List.flatten_cons, List.getD_cons_zero, Nat.mul_zero, Nat.zero_add]
    rw [List.getD_append _ _ _ _ (by omega)]
  | x :: xs, k + 1, i, h8, hk, hi => by
    have hx : x.length = 8 := h8 x (by simp)
    have ih := flatten_getD_of_blocks d xs k i (fun y hy => h8 y (by simp [hy]))
      (by simpa using Nat.lt_of_succ_lt_succ hk) hi
    simp only [List.flatten_cons]
    rw [List.getD_append_right _ _ _ _ (by omega)]
    have harith : 8 * (k + 1) + i - x.length = 8 * k + i := by omega
    rw [harith, ih]
    rfl

/-- The bit list of `n` bytes has `8·n` entries. -/
theorem pbb_challenge_bits_length (bytes : List ℕ) :
    (pbb_challenge_bits bytes).length = 8 * bytes.length := by
  unfold pbb_challenge_bits
  rw [List.length_flatten, List.map_map]
  have hconst : (List.length ∘ fun byte : ℕ =>
      (List.range 8).map (fun i => ((byte / 2 ^ (7 - i) % 2 : ℕ) : ZMod pbbQ))) =
      fun _ => 8 := by
    funext b
    simp
  rw [hconst, List.map_const', List.sum_replicate, smul_eq_mul, mul_comm]

/-- What `get_challenge_set` actually computes: a list of 120 coefficients,
determined by the 15 bytes drawn from the thread rng, where the output
position `8k + i` carries bit `7 − i` of byte `k` — in particular position
`8k + 0` carries bit 7 of byte `k`.  The rng position advances by 15. -/
theorem pbb_challenge_set_from_drawn_bytes (rng : ℕ → ℕ) (pos : ℕ) :
    (pbb_get_challenge_set rng pos).1.length = 120 ∧
    (pbb_get_challenge_set rng pos).2 = pos + 15 ∧
    ∀ k i : ℕ, k < 15 → i < 8 →
      (pbb_get_challenge_set rng pos).1.getD (8 * k + i) 0 =
        ((rng (pos + k) % 256 / 2 ^ (7 - i) % 2 : ℕ) : ZMod pbbQ) := by
  refine ⟨?_, rfl, ?_⟩
  · show (pbb_challenge_bits _).length = 120
    rw [pbb_challenge_bits_length]
    simp
  · intro k i hk hi
    show (pbb_challenge_bits _).getD _ _ = _
    unfold pbb_challenge_bits
    rw [flatten_getD_of_blocks _ _ k i (by simp) (by simp; omega) hi]
    rw [List.map_map]
    rw [getD_map_range 15 k _ [] hk]
    simp only [Function.comp_apply]
    rw [getD_map_range 8 i _ 0 hi]

/-- `get_challenge_set` is not a deterministic function of a caller-supplied
seed: it takes no seed argument and draws fresh bytes from the thread rng, so
two consecutive calls (with the rng state advanced by the first call) return
different challenge elements. -/
theorem pbb_challenge_set_two_calls_differ :
    (pbb_get_challenge_set (fun n => n) 0).1 ≠
      (pbb_get_challenge_set (fun n => n)
        (pbb_get_challenge_set (fun n => n) 0).2).1 := by
  decide

/-- Scenario S1: committing with the `9 × 2^15` matrix `M[i][j] = i·W + j` to
the constant witness `f_j = 2` yields the commitment whose `i`-th coordinate
is `W·(2·i·W + (W−1))` embedded in the ring (reduced mod q for `R = ZMod q`).
Stated for an arbitrary commutative ring, so it specialises to every prime
modulus. -/
theorem commit_ntt_s1 (R : Type) [CommRing R] :
    commit_ntt (s1_matrix R) 9 (2 ^ 15) (List.replicate (2 ^ 15) (2 : R)) =
      .ok ((List.range 9).map
        (fun i => ((2 ^ 15 * (2 * i * 2 ^ 15 + (2 ^ 15 - 1)) : ℕ) : R))) := by
  unfold commit_ntt
  rw [if_neg (by rw [List.length_replicate]; simp)]
  refine congrArg Except.ok ?_
  apply List.map_congr_left
  intro i hi
  rw [List.mem_range] at hi
  have hget : (s1_matrix R).get? i =
      some ((List.range (2 ^ 15)).map (fun j => ((i * 2 ^ 15 + j : ℕ) : R))) := by
    unfold s1_matrix
    rw [List.get?_eq_getElem?, List.getElem?_map, List.getElem?_range hi]
    rfl
  rw [hget]
  simp only
  rw [zip_map_sum (fun a b => a * b) 0 0]
  simp only [List.length_map, List.length_range, List.length_replicate, min_self]
  have hcongr : ∀ j ∈ Finset.range (2 ^ 15),
      ((List.range (2 ^ 15)).map (fun j' => ((i * 2 ^ 15 + j' : ℕ) : R))).getD j 0 *
        (List.replicate (2 ^ 15) (2 : R)).getD j 0 =
      (((i * 2 ^ 15 + j) * 2 : ℕ) : R) := by
    intro j hj
    rw [Finset.mem_range] at hj
    rw [getD_map_range _ _ _ _ hj, getD_replicate' _ _ _ _ hj]
    push_cast
    ring
  rw [Finset.sum_congr rfl hcongr, ← Nat.cast_sum, s1_nat_sum]

/-- Witness: the constant-matrix property of `rand` evaluated at a concrete
rng stream, matrix shape `2 × 2`, entry `(1,1)`. -/
theorem ajtai_rand_entries_all_equal_witness :
    ((ajtai_rand 2 2 (fun s : ℕ => ((s : ℤ), s + 1)) 0).1.getD 1 []).getD 1 0 =
      ((fun s : ℕ => ((s : ℤ), s + 1)) 0).1 :=
  ajtai_rand_entries_all_equal 2 2 (fun s : ℕ => ((s : ℤ), s + 1)) 0 1 1
    (by decide) (by decide)

/-- Witness: `commit_ntt` on a concrete well-formed `2 × 2` matrix over `ℤ`. -/
theorem commit_ntt_spec_witness :
    commit_ntt [[(1 : ℤ), 2], [3, 4]] 2 2 [5, 6] =
      .ok ((List.range 2).map (fun i =>
        ∑ j ∈ Finset.range 2,
          (([[(1 : ℤ), 2], [3, 4]]).getD i []).getD j 0 * ([(5 : ℤ), 6].getD j 0))) :=
  (commit_ntt_spec [[(1 : ℤ), 2], [3, 4]] 2 2 [5, 6] (by decide)
    (by decide)).1 (by decide)

/-- Witness: the challenge-set bit-placement theorem at the identity byte
stream, byte `0`, bit position `0`. -/
theorem pbb_challenge_set_from_drawn_bytes_witness :
    (pbb_get_challenge_set (fun n => n) 0).1.length = 120 ∧
    (pbb_get_challenge_set (fun n => n) 0).1.getD 0 0 =
      (((fun n : ℕ => n) (0 + 0) % 256 / 2 ^ (7 - 0) % 2 : ℕ) : ZMod pbbQ) := by
  obtain ⟨h1, _, h3⟩ := pbb_challenge_set_from_drawn_bytes (fun n => n) 0
  exact ⟨h1, by simpa using h3 0 0 (by decide) (by decide)⟩

/-- Witness: the S1 commitment identity instantiated at `R = ℤ`. -/
theorem commit_ntt_s1_witness :
    commit_ntt (s1_matrix ℤ) 9 (2 ^ 15) (List.replicate (2 ^ 15) (2 : ℤ)) =
      .ok ((List.range 9).map
        (fun i => ((2 ^ 15 * (2 * i * 2 ^ 15 + (2 ^ 15 - 1)) : ℕ) : ℤ))) :=
  commit_ntt_s1 ℤ

/-! ## Sumcheck theorems -/

section SumcheckSyncThms

variable {R CR S : Type} [CommRing R] (tr : TranscriptOps R CR S)

/-- The prover loop emits one message per round. -/
theorem sumcheckProveLoop_msgs_length (n d : ℕ) (g : List R → R) (k : ℕ) :
    ∀ (st : S) (rs : List R), (sumcheckProveLoop tr n d g k st rs).1.length = k := by
  induction k with
  | zero => intro st rs; rfl
  | succ k ih =>
    intro st rs
    simp only [sumcheckProveLoop, List.length_cons]
    rw [ih]

/-- The prover loop records one challenge per round. -/
theorem sumcheckProveLoop_rands_length (n d : ℕ) (g : List R → R) (k : ℕ) :
    ∀ (st : S) (rs : List R), (sumcheckProveLoop tr n d g k st rs).2.1.length = k := by
  induction k with
  | zero => intro st rs; rfl
  | succ k ih =>
    intro st rs
    simp only [sumcheckProveLoop, List.length_cons]
    rw [ih]

/-- **Transcript synchronisation.**  Fed the prover's messages from the same
starting transcript state, the verifier loop re-derives exactly the prover's
round challenges and ends in the prover's final transcript state. -/
theorem sumcheckVerifyLoop_sync (n d : ℕ) (g : List R → R) (k : ℕ) :
    ∀ (st : S) (rs : List R),
      sumcheckVerifyLoop tr k st (sumcheckProveLoop tr n d g k st rs).1 =
        some ((sumcheckProveLoop tr n d g k st rs).2.1,
          (sumcheckProveLoop tr n d g k st rs).2.2) := by
  induction k with
  | zero => intro st rs; rfl
  | succ k ih =>
    intro st rs
    simp only [sumcheckProveLoop, sumcheckVerifyLoop]
    rw [ih]

omit [CommRing R] in
/-- An incomplete message list makes the verifier loop panic
(`expect("proof is incomplete")`). -/
theorem sumcheckVerifyLoop_short (k : ℕ) :
    ∀ (st : S) (msgs : List (List R)), msgs.length < k →
      sumcheckVerifyLoop tr k st msgs = none := by
  induction k with
  | zero => intro st msgs h; omega
  | succ k ih =>
    intro st msgs h
    match msgs with
    | [] => rfl
    | m :: rest =>
      simp only [sumcheckVerifyLoop]
      rw [ih _ rest (by simpa using Nat.lt_of_succ_lt_succ h)]

/-- The two Boolean evaluations of a round polynomial add up to the running
partial sum. -/
theorem roundPolyEval_zero_one (n : ℕ) (g : List R → R) (rs : List R)
    (h : rs.length < n) :
    roundPolyEval n g rs 0 + roundPolyEval n g rs 1 = subcubeSum n g rs := by
  unfold roundPolyEval subcubeSum
  have harith : n - rs.length = (n - rs.length - 1) + 1 := by omega
  rw [harith]
  rfl

/-- Evaluating a round polynomial at the challenge is the partial sum with the
challenge appended. -/
theorem roundPolyEval_append (n : ℕ) (g : List R → R) (rs : List R) (r : R)
    (h : rs.length < n) :
    roundPolyEval n g rs r = subcubeSum n g (rs ++ [r]) := by
  unfold roundPolyEval subcubeSum
  have hl : (rs ++ [r]).length = rs.length + 1 := by simp
  rw [hl]
  have harith : n - (rs.length + 1) = n - rs.length - 1 := by omega
  rw [harith]
  congr 1
  funext bs
  rw [List.append_assoc]
  rfl

/-- Once all `n` challenges are fixed there is nothing left to sum: the
partial sum is the evaluation of `g` at the challenge point. -/
theorem subcubeSum_full (n : ℕ) (g : List R → R) (rs : List R)
    (h : rs.length = n) : subcubeSum n g rs = g rs := by
  unfold subcubeSum
  rw [h, Nat.sub_self]
  show g (rs ++ []) = g rs
  rw [List.append_nil]

/-- The partial sum over the empty challenge list is the full hypercube sum. -/
theorem subcubeSum_nil (n : ℕ) (g : List R → R) :
    subcubeSum n g [] = sumOverBool n g := by
  unfold subcubeSum
  simp

end SumcheckSyncThms

section SumcheckFieldThms

variable {R CR S : Type} [Field R] [DecidableEq R]

omit [DecidableEq R] in
/-- **Exactness of the interpolation formula.**  Interpolating the values of a
polynomial of degree `≤ d` at the nodes `0, 1, …, d` recovers its value at any
point, provided the nodes are distinct in `R`. -/
theorem lagrangeEval_interpolates (d : ℕ) (p : Polynomial R)
    (hcast : Set.InjOn (fun i : ℕ => (i : R)) (Finset.range (d + 1)))
    (hdeg : p.degree < (d + 1 : ℕ)) (x : R) :
    lagrangeEval ((List.range (d + 1)).map (fun i : ℕ => p.eval (i : R))) x = p.eval x := by
  have hcard : (Finset.range (d + 1)).card = d + 1 := Finset.card_range _
  have hinterp := Lagrange.eq_interpolate (v := fun i : ℕ => (i : R))
    (s := Finset.range (d + 1)) hcast (by rw [hcard]; exact hdeg)
  conv_rhs => rw [hinterp]
  rw [Lagrange.interpolate_apply, Polynomial.eval_finset_sum]
  unfold lagrangeEval
  rw [List.length_map, List.length_range]
  apply Finset.sum_congr rfl
  intro i hi
  rw [Finset.mem_range] at hi
  rw [getD_map_range _ _ _ _ hi, Polynomial.eval_mul, Polynomial.eval_C]
  congr 1
  unfold Lagrange.basis
  rw [Polynomial.eval_prod]
  apply Finset.prod_congr rfl
  intro j _
  unfold Lagrange.basisDivisor
  rw [Polynomial.eval_mul, Polynomial.eval_C, Polynomial.eval_sub, Polynomial.eval_X,
    Polynomial.eval_C]

/-- **Completeness of the claims chain.**  On the honest prover's messages and
challenges, `check_and_generate_subclaim` accepts: started at the running
partial sum it returns the final expected evaluation, which is the partial sum
at the full challenge list.  Needs every round polynomial of `g` to agree with
a polynomial of degree `≤ d` and the `d+1` nodes to be distinct in `R`. -/
theorem sumcheckCheckLoop_complete (tr : TranscriptOps R CR S) (n d : ℕ)
    (g : List R → R) (hd : 1 ≤ d)
    (hcast : Set.InjOn (fun i : ℕ => (i : R)) (Finset.range (d + 1)))
    (hdeg : ∀ rs : List R, rs.length < n → ∃ p : Polynomial R,
      p.degree < (d + 1 : ℕ) ∧ ∀ t : R, roundPolyEval n g rs t = p.eval t)
    (k : ℕ) :
    ∀ (st : S) (rs : List R), rs.length + k = n →
      sumcheckCheckLoop d (sumcheckProveLoop tr n d g k st rs).1
          (sumcheckProveLoop tr n d g k st rs).2.1 (subcubeSum n g rs) =
        .ok (subcubeSum n g (rs ++ (sumcheckProveLoop tr n d g k st rs).2.1)) := by
  induction k with
  | zero =>
    intro st rs _
    simp [sumcheckProveLoop, sumcheckCheckLoop]
  | succ k ih =>
    intro st rs h
    have hlt : rs.length < n := by omega
    have hmlen : (roundMessage n d g rs).length = d + 1 := by
      simp [roundMessage]
    have h0 : (roundMessage n d g rs).getD 0 0 = roundPolyEval n g rs 0 := by
      unfold roundMessage
      rw [getD_map_range _ _ _ _ (by omega)]
      norm_num
    have h1 : (roundMessage n d g rs).getD 1 0 = roundPolyEval n g rs 1 := by
      unfold roundMessage
      rw [getD_map_range _ _ _ _ (by omega)]
      norm_num
    have hsum : (roundMessage n d g rs).getD 0 0 + (roundMessage n d g rs).getD 1 0 =
        subcubeSum n g rs := by
      rw [h0, h1, roundPolyEval_zero_one n g rs hlt]
    obtain ⟨p, hpdeg, hpev⟩ := hdeg rs hlt
    have hm : roundMessage n d g rs =
        (List.range (d + 1)).map (fun i : ℕ => p.eval (i : R)) := by
      unfold roundMessage
      apply List.map_congr_left
      intro a _
      rw [hpev]
    simp only [sumcheckProveLoop, sumcheckCheckLoop]
    rw [if_neg (by rw [hmlen]; simp), if_neg (by rw [hsum]; simp)]
    have hlag : lagrangeEval (roundMessage n d g rs)
        (tr.squeeze (absorbSlice tr st (roundMessage n d g rs))).1 =
        subcubeSum n g (rs ++ [(tr.squeeze (absorbSlice tr st (roundMessage n d g rs))).1]) := by
      rw [hm, lagrangeEval_interpolates d p hcast hpdeg, ← hpev,
        roundPolyEval_append n g rs _ hlt]
    rw [hlag]
    rw [ih _ (rs ++ [(tr.squeeze (absorbSlice tr st (roundMessage n d g rs))).1])
      (by simp; omega)]
    rw [List.append_assoc]
    rfl

/-- **Sumcheck completeness as a subprotocol.**  For an honest prover on a
virtual polynomial `g` whose round polynomials have degree `≤ d`, and the
correct claimed sum, `verify_as_subprotocol` run from the same initial
transcript state accepts and returns the subclaim
`(point = the prover's randomness, expected_evaluation = g(point))`, ending in
the prover's final transcript state. -/
theorem sumcheckVerify_complete (tr : TranscriptOps R CR S) (st : S) (n d : ℕ)
    (g : List R → R) (claimed : R) (hn : 1 ≤ n) (hd : 1 ≤ d)
    (hcast : Set.InjOn (fun i : ℕ => (i : R)) (Finset.range (d + 1)))
    (hdeg : ∀ rs : List R, rs.length < n → ∃ p : Polynomial R,
      p.degree < (d + 1 : ℕ) ∧ ∀ t : R, roundPolyEval n g rs t = p.eval t)
    (hclaim : claimed = sumOverBool n g) :
    ∃ out : List (List R) × List R × S,
      sumcheckProve tr st n d g = some out ∧
      out.2.1.length = n ∧
      sumcheckVerify tr st n d claimed out.1 =
        some (out.2.2, .ok (out.2.1, g out.2.1)) := by
  have hn0 : ¬(n = 0) := by omega
  simp only [sumcheckProve, sumcheckVerify, hn0, if_false]
  refine ⟨sumcheckProveLoop tr n d g n (tr.absorb (tr.absorb st (n : R)) (d : R)) [],
    rfl, sumcheckProveLoop_rands_length tr n d g n _ [], ?_⟩
  rw [sumcheckVerifyLoop_sync tr n d g n _ []]
  simp only
  have htake : (sumcheckProveLoop tr n d g n
      (tr.absorb (tr.absorb st (n : R)) (d : R)) []).1.take n =
      (sumcheckProveLoop tr n d g n (tr.absorb (tr.absorb st (n : R)) (d : R)) []).1 := by
    apply List.take_of_length_le
    rw [sumcheckProveLoop_msgs_length]
  rw [htake]
  have hchk := sumcheckCheckLoop_complete tr n d g hd hcast hdeg n
    (tr.absorb (tr.absorb st (n : R)) (d : R)) [] (by simp)
  rw [subcubeSum_nil, ← hclaim] at hchk
  rw [hchk]
  rw [subcubeSum_full n g _ (by simp [sumcheckProveLoop_rands_length])]
  rfl

/-- `MLSumcheck::verify_as_subprotocol` is not total in the proof: whenever
the proof carries fewer than `nvars` prover messages it panics (the
`expect("proof is incomplete")`), modelled as `none`, rather than returning
any `SumCheckError`. -/
theorem sumcheckVerify_incomplete_proof_panics (tr : TranscriptOps R CR S)
    (st : S) (n d : ℕ) (claimed : R) (msgs : List (List R))
    (h : msgs.length < n) :
    sumcheckVerify tr st n d claimed msgs = none := by
  simp only [sumcheckVerify]
  rw [sumcheckVerifyLoop_short tr n _ msgs h]

/-- Witness: the panic on a concrete incomplete proof — the empty message list
against `nvars = 2`. -/
theorem sumcheckVerify_incomplete_proof_panics_witness :
    sumcheckVerify natTranscript 0 2 2 (0 : ℚ) [] = none :=
  sumcheckVerify_incomplete_proof_panics natTranscript 0 2 2 0 [] (by decide)

end SumcheckFieldThms

/-! ## Folding helper theorems -/

section FoldingHelperThms

variable {R : Type} [CommRing R]

/-- The inner Horner loop of `calculate_challenged_mz_mle` computes
`Σ_j ζ^{j+1} · M_j`. -/
theorem horner_foldr (z : R) (Ms : List (List R → R)) :
    Ms.foldr (fun M mle => mleScale z (mleAdd mle M)) (fun _ => 0) =
      fun x => ∑ j ∈ Finset.range Ms.length,
        z ^ (j + 1) * (Ms.getD j (fun _ => 0)) x := by
  induction Ms with
  | nil => funext x; simp
  | cons M Ms ih =>
    funext x
    simp only [List.foldr_cons, List.length_cons]
    rw [ih]
    show z * ((∑ j ∈ Finset.range Ms.length,
        z ^ (j + 1) * (Ms.getD j (fun _ => 0)) x) + M x) = _
    rw [Finset.sum_range_succ']
    simp only [List.getD_cons_succ, List.getD_cons_zero]
    rw [mul_add, Finset.mul_sum]
    congr 1
    · apply Finset.sum_congr rfl
      intro j _
      ring
    · ring

/-- Applying a fold of pointwise MLE additions at a point. -/
theorem foldl_mleAdd_apply {α : Type} (h : α → (List R → R)) :
    ∀ (l : List α) (base : List R → R) (x : List R),
      (l.foldl (fun acc p => mleAdd acc (h p)) base) x =
        base x + (l.map (fun p => h p x)).sum
  | [], base, x => by simp
  | p :: ps, base, x => by
    simp only [List.foldl_cons, List.map_cons, List.sum_cons]
    rw [foldl_mleAdd_apply h ps (mleAdd base (h p)) x]
    show base x + h p x + _ = _
    ring

/-- `calculate_challenged_mz_mle` returns the polynomial
`Σ_i Σ_j ζ_i^{j+1} · Mz_mles_vec[i][j]` (evaluated pointwise): the Horner
fold from the last index down, multiplying by `ζ_i` after each addition. -/
theorem calculate_challenged_mz_mle_spec
    (Mz_mles_vec : List (List (List R → R))) (zeta_s : List R)
    (hlen : Mz_mles_vec.length = zeta_s.length) (x : List R) :
    calculate_challenged_mz_mle Mz_mles_vec zeta_s x =
      ∑ i ∈ Finset.range zeta_s.length,
        ∑ j ∈ Finset.range ((Mz_mles_vec.getD i []).length),
          (zeta_s.getD i 0) ^ (j + 1) *
            ((Mz_mles_vec.getD i []).getD j (fun _ => 0)) x := by
  unfold calculate_challenged_mz_mle
  rw [foldl_mleAdd_apply
    (fun p : R × List (List R → R) =>
      p.2.foldr (fun M mle => mleScale p.1 (mleAdd mle M)) (fun _ => 0))
    (zeta_s.zip Mz_mles_vec) (fun _ => 0) x]
  show 0 + ((zeta_s.zip Mz_mles_vec).map _).sum = _
  rw [zero_add]
  rw [zip_map_sum
    (fun z Ms => (Ms.foldr (fun M mle => mleScale z (mleAdd mle M)) (fun _ => 0)) x)
    0 []]
  rw [hlen, min_self]
  apply Finset.sum_congr rfl
  intro i _
  rw [horner_foldr]

/-- Closed form of the `successors` power-stream sum. -/
theorem powSum_eq (a : R) : ∀ (cur : R) (l : List R),
    powSum a cur l = ∑ j ∈ Finset.range l.length, cur * a ^ j * l.getD j 0
  | cur, [] => by simp [powSum]
  | cur, x :: xs => by
    simp only [powSum, List.length_cons]
    rw [powSum_eq a (cur * a) xs, Finset.sum_range_succ']
    simp only [List.getD_cons_succ, List.getD_cons_zero, pow_zero]
    rw [add_comm]
    congr 1
    · apply Finset.sum_congr rfl
      intro j _
      ring
    · ring

/-- `calculate_claims` computes
`claim_g1 = Σ_i Σ_j α_i^{j+1} · v_i[j]` and
`claim_g3 = Σ_i Σ_j ζ_i^{j+1} · u_i[j]` — powers of the challenge starting at
the first power — over the first `min(|α|, |cm_i_s|)` instances. -/
theorem calculate_claims_spec (alpha_s zeta_s : List R) (cm_i_s : List (LCCCS R))
    (dflt : LCCCS R) (ha : alpha_s.length = cm_i_s.length)
    (hz : zeta_s.length = cm_i_s.length) :
    calculate_claims alpha_s zeta_s cm_i_s =
      (∑ i ∈ Finset.range cm_i_s.length,
         ∑ j ∈ Finset.range ((cm_i_s.getD i dflt).v.length),
           (alpha_s.getD i 0) ^ (j + 1) * (cm_i_s.getD i dflt).v.getD j 0,
       ∑ i ∈ Finset.range cm_i_s.length,
         ∑ j ∈ Finset.range ((cm_i_s.getD i dflt).u.length),
           (zeta_s.getD i 0) ^ (j + 1) * (cm_i_s.getD i dflt).u.getD j 0) := by
  unfold calculate_claims
  have hv : ∀ (ch : List R) (sel : LCCCS R → List R), ch.length = cm_i_s.length →
      ((ch.zip (cm_i_s.map sel)).map (fun p => powSum p.1 p.1 p.2)).sum =
        ∑ i ∈ Finset.range cm_i_s.length,
          ∑ j ∈ Finset.range ((sel (cm_i_s.getD i dflt)).length),
            (ch.getD i 0) ^ (j + 1) * (sel (cm_i_s.getD i dflt)).getD j 0 := by
    intro ch sel hc
    rw [zip_map_sum (fun a l => powSum a a l) 0 []]
    rw [List.length_map, hc, min_self]
    apply Finset.sum_congr rfl
    intro i hi
    rw [Finset.mem_range] at hi
    have hmap : (cm_i_s.map sel).getD i [] = sel (cm_i_s.getD i dflt) := by
      rw [List.getD_eq_getElem?_getD, List.getElem?_map,
        List.getD_eq_getElem?_getD, List.getElem?_eq_getElem hi]
      rfl
    rw [hmap, powSum_eq]
    apply Finset.sum_congr rfl
    intro j _
    ring
  rw [Prod.mk.injEq]
  exact ⟨hv alpha_s LCCCS.v ha, hv zeta_s LCCCS.u hz⟩

/-- One component of `calculate_claims` without any length assumption: the
truncating zip sums over the first `min(|challenges|, |instances|)`
instances. -/
theorem claims_component_sum (ch : List R) (cm_i_s : List (LCCCS R))
    (sel : LCCCS R → List R) (dflt : LCCCS R) :
    ((ch.zip (cm_i_s.map sel)).map (fun p => powSum p.1 p.1 p.2)).sum =
      ∑ i ∈ Finset.range (min ch.length cm_i_s.length),
        ∑ j ∈ Finset.range ((sel (cm_i_s.getD i dflt)).length),
          (ch.getD i 0) ^ (j + 1) * (sel (cm_i_s.getD i dflt)).getD j 0 := by
  rw [zip_map_sum (fun a l => powSum a a l) 0 [], List.length_map]
  apply Finset.sum_congr rfl
  intro i hi
  rw [Finset.mem_range] at hi
  have hi2 : i < cm_i_s.length := by
    have := Nat.min_le_right ch.length cm_i_s.length
    omega
  have hmap : (cm_i_s.map sel).getD i [] = sel (cm_i_s.getD i dflt) := by
    rw [List.getD_eq_getElem?_getD, List.getElem?_map,
      List.getD_eq_getElem?_getD, List.getElem?_eq_getElem hi2]
    rfl
  rw [hmap, powSum_eq]
  apply Finset.sum_congr rfl
  intro j _
  ring

end FoldingHelperThms

/-! ## Plumbing lemmas for the folding protocol -/

section FoldingChaseThms

variable {R CR S : Type} [CommRing R]

omit [CommRing R] in
/-- `get_challenges(n)` yields `n` challenges. -/
theorem squeezeN_length (tr : TranscriptOps R CR S) :
    ∀ (n : ℕ) (st : S), (squeezeN tr n st).1.length = n
  | 0, _ => rfl
  | n + 1, st => by
    simp only [squeezeN, List.length_cons]
    rw [squeezeN_length tr n]

omit [CommRing R] in
/-- `get_small_challenges(n)` yields `n` challenges. -/
theorem squeezeShortN_length (tr : TranscriptOps R CR S) :
    ∀ (n : ℕ) (st : S), (squeezeShortN tr n st).1.length = n
  | 0, _ => rfl
  | n + 1, st => by
    simp only [squeezeShortN, List.length_cons]
    rw [squeezeShortN_length tr n]

/-- A pointwise sum of two non-empty vectors is non-empty. -/
theorem zipWith_add_ne_nil (a b : List R) (ha : a ≠ []) (hb : b ≠ []) :
    List.zipWith (fun x y => x + y) a b ≠ [] := by
  match a, b with
  | [], _ => exact absurd rfl ha
  | _ :: _, [] => exact absurd rfl hb
  | x :: xs, y :: ys => simp

/-- Folding pointwise sums over non-empty vectors keeps the accumulator
non-empty. -/
theorem foldl_zipWith_ne_nil :
    ∀ (l : List (List R)) (acc : List R), acc ≠ [] → (∀ v ∈ l, v ≠ []) →
      l.foldl (fun a b => List.zipWith (fun x y => x + y) a b) acc ≠ []
  | [], _, ha, _ => ha
  | v :: t, acc, ha, hl => by
    simp only [List.foldl_cons]
    exact foldl_zipWith_ne_nil t _ (zipWith_add_ne_nil acc v ha (hl v (by simp)))
      (fun w hw => hl w (by simp [hw]))

/-- `sumVecs` of a non-empty list of non-empty vectors is non-empty. -/
theorem sumVecs_ne_nil (l : List (List R)) (hne : l ≠ [])
    (hall : ∀ v ∈ l, v ≠ []) : sumVecs l ≠ [] := by
  match l with
  | [] => exact absurd rfl hne
  | h :: t =>
    exact foldl_zipWith_ne_nil t h (hall h (by simp)) (fun v hv => hall v (by simp [hv]))

/-- The recombined public vector `x_0` is non-empty whenever there is at least
one ρ challenge and one instance (each per-instance vector is `x_w ++ [h]`,
never empty). -/
theorem x0_ne_nil (crt : CR → R) (rho_s : List CR) (theta_s eta_s : List (List R))
    (cm_i_s : List (LCCCS R)) (hr : rho_s ≠ []) (hc : cm_i_s ≠ []) :
    (compute_v0_u0_x0_cm_0 crt rho_s theta_s cm_i_s eta_s).2.2.2 ≠ [] := by
  unfold compute_v0_u0_x0_cm_0
  simp only
  apply sumVecs_ne_nil
  · match rho_s, cm_i_s with
    | [], _ => exact absurd rfl hr
    | _ :: _, [] => exact absurd rfl hc
    | p :: ps, c :: cs => simp
  · intro v hv
    rw [List.mem_map] at hv
    obtain ⟨p, _, rfl⟩ := hv
    simp [scaleVec]

end FoldingChaseThms

section FoldingErrThms

variable {R CR S : Type} [Field R] [DecidableEq R]
variable (tr : TranscriptOps R CR S)
variable (gBuilder : ℕ → List (List (List R → R)) → List R → (List R → R) →
  (List R → R) → List (List R) → List R → List R → (List R → R))
variable (expectedValFn : List R → List R → List (List R) → R → List R →
  List R → List (List R) → R)
variable (fromFHat : List R → List (List R → R))

/-- Error precedence of the folding endpoints.  `sanity_check` runs *before*
the `2K` length check, so `IncorrectLength` is guaranteed on a wrong-length
input only when the CCS passes the sanity check; and both endpoints report
`ConstraintSystem(InvalidSizeBounds)` exactly when
`ccs.m ≠ max((ccs.n − ccs.l − 1)·L, ccs.m).next_power_of_two()`. -/
theorem folding_error_precedence (P : DecompositionParams) (ccs : CCS)
    (cm_i_s : List (LCCCS R)) (w_s : List (Witness R))
    (mz_mles : List (List (List R → R))) (prf : FoldingProof R) (st : S) :
    (ccs.m = nextPowerOfTwo (max ((ccs.n - ccs.l - 1) * P.L) ccs.m) →
      cm_i_s.length ≠ 2 * P.K →
      folding_prove tr gBuilder fromFHat P cm_i_s w_s st ccs mz_mles =
        some (.error .incorrectLength)) ∧
    ((∃ e, folding_prove tr gBuilder fromFHat P cm_i_s w_s st ccs mz_mles =
        some (.error (.constraintSystem e))) ↔
      ccs.m ≠ nextPowerOfTwo (max ((ccs.n - ccs.l - 1) * P.L) ccs.m)) ∧
    ((∃ e, folding_verify tr expectedValFn P cm_i_s prf st ccs =
        some (.error (.constraintSystem e))) ↔
      ccs.m ≠ nextPowerOfTwo (max ((ccs.n - ccs.l - 1) * P.L) ccs.m)) := by
  by_cases hs : ccs.m = nextPowerOfTwo (max ((ccs.n - ccs.l - 1) * P.L) ccs.m)
  · have hsanOk : sanity_check (R := R) P ccs = .ok () := by
      unfold sanity_check
      rw [if_neg (not_not_intro hs)]
    refine ⟨?_, ?_, ?_⟩
    · intro _ hlen
      simp only [folding_prove, hsanOk]
      rw [if_pos hlen]
    · constructor
      · rintro ⟨e, he⟩
        exfalso
        simp only [folding_prove, hsanOk] at he
        repeat' split at he
        all_goals simp_all
      · intro hne
        exact absurd hs hne
    · constructor
      · rintro ⟨e, he⟩
        exfalso
        simp only [folding_verify, hsanOk] at he
        repeat' split at he
        all_goals simp_all
      · intro hne
        exact absurd hs hne
  · have hsanErr : sanity_check (R := R) P ccs =
        .error (.constraintSystem (.invalidSizeBounds ccs.m ccs.n P.L)) := by
      unfold sanity_check
      rw [if_pos hs]
    refine ⟨fun hcontra _ => absurd hcontra hs, ?_, ?_⟩
    · exact ⟨fun _ => hs,
        fun _ => ⟨.invalidSizeBounds ccs.m ccs.n P.L,
          by simp [folding_prove, hsanErr]⟩⟩
    · exact ⟨fun _ => hs,
        fun _ => ⟨.invalidSizeBounds ccs.m ccs.n P.L,
          by simp [folding_verify, hsanErr]⟩⟩

/-- The claim "prove returns `IncorrectLength` whenever `|cm_i_s| ≠ 2K`" fails
at a CCS that violates the sanity check: there the sanity error takes
precedence.  Concretely, `m = 3` is not a power of two, the instance list is
empty (`0 ≠ 2K`), yet prove reports `InvalidSizeBounds`, not
`IncorrectLength`. -/
theorem folding_prove_length_claim_counterexample :
    ([] : List (LCCCS ℚ)).length ≠ 2 * (⟨1, 1, 1, 1⟩ : DecompositionParams).K ∧
    folding_prove natTranscript zeroGBuilder emptyFromFHat ⟨1, 1, 1, 1⟩ [] [] 0
        ⟨3, 3, 1, 0⟩ [] =
      some (.error (.constraintSystem (.invalidSizeBounds 3 3 1))) ∧
    folding_prove natTranscript zeroGBuilder emptyFromFHat ⟨1, 1, 1, 1⟩ [] [] 0
        ⟨3, 3, 1, 0⟩ [] ≠ some (.error .incorrectLength) := by
  refine ⟨by decide, rfl, ?_⟩
  intro h
  have heq : folding_prove natTranscript zeroGBuilder emptyFromFHat
      (⟨1, 1, 1, 1⟩ : DecompositionParams) [] [] 0 ⟨3, 3, 1, 0⟩ [] =
      some (.error (.constraintSystem (.invalidSizeBounds 3 3 1))) := rfl
  rw [heq] at h
  simp at h

/-- Witness: the amended error-precedence theorem applied at a concrete CCS
that passes the sanity check and an empty (wrong-length) instance list. -/
theorem folding_error_precedence_witness :
    folding_prove natTranscript zeroGBuilder emptyFromFHat ⟨1, 1, 1, 1⟩ [] [] 0
        ⟨2, 3, 1, 1⟩ [] = some (.error .incorrectLength) :=
  (folding_error_precedence natTranscript zeroGBuilder zeroExpectedValFn
    emptyFromFHat ⟨1, 1, 1, 1⟩ ⟨2, 3, 1, 1⟩ [] [] [] ⟨[], [], []⟩ 0).1
    (by decide) (by decide)

/-- `LFFoldingVerifier::verify` never compares `|cm_i_s|` with `2K`: on a
too-short instance list (still non-empty, with at least one ρ challenge) no
`IncorrectLength` error can arise — the only `IncorrectLength` source in
`verify` is an empty recombined `x_0` — and `calculate_claims` silently sums
over the first `min(2K, |cm_i_s|)` instances, because its zips truncate to
the shorter operand. -/
theorem folding_verify_no_2k_check (P : DecompositionParams) (ccs : CCS)
    (cm_i_s : List (LCCCS R)) (prf : FoldingProof R) (st : S)
    (hK : 1 ≤ P.K) (hlen : cm_i_s.length < 2 * P.K) (hne : cm_i_s ≠ []) :
    folding_verify tr expectedValFn P cm_i_s prf st ccs ≠
      some (.error .incorrectLength) ∧
    ∀ alpha_s zeta_s : List R, alpha_s.length = 2 * P.K →
      zeta_s.length = 2 * P.K →
      calculate_claims alpha_s zeta_s cm_i_s =
        (∑ i ∈ Finset.range (min (2 * P.K) cm_i_s.length),
           ∑ j ∈ Finset.range ((cm_i_s.getD i (defaultLCCCS R)).v.length),
             (alpha_s.getD i 0) ^ (j + 1) *
               (cm_i_s.getD i (defaultLCCCS R)).v.getD j 0,
         ∑ i ∈ Finset.range (min (2 * P.K) cm_i_s.length),
           ∑ j ∈ Finset.range ((cm_i_s.getD i (defaultLCCCS R)).u.length),
             (zeta_s.getD i 0) ^ (j + 1) *
               (cm_i_s.getD i (defaultLCCCS R)).u.getD j 0) := by
  constructor
  · intro h
    simp only [folding_verify] at h
    rcases hsan : sanity_check (R := R) P ccs with e | u
    case error =>
      simp only [hsan] at h
      unfold sanity_check at hsan
      split at hsan
      · simp_all
      · simp at hsan
    case ok =>
    simp only [hsan] at h
    have hrho : ∀ st' : S, (get_rhos tr P st').1 ≠ [] := by
      intro st' hnil
      have hlenr := squeezeShortN_length tr P.K st'
      rw [show get_rhos tr P st' = squeezeShortN tr P.K st' from rfl] at hnil
      rw [hnil] at hlenr
      simp at hlenr
      omega
    repeat' split at h
    all_goals try simp_all
    rename_i heq
    exact absurd heq (x0_ne_nil tr.crt _ _ _ cm_i_s (hrho _) hne)
  · intro alpha_s zeta_s ha hz
    unfold calculate_claims
    rw [Prod.mk.injEq]
    constructor
    · rw [claims_component_sum alpha_s cm_i_s LCCCS.v (defaultLCCCS R), ha]
    · rw [claims_component_sum zeta_s cm_i_s LCCCS.u (defaultLCCCS R), hz]

end FoldingErrThms

section RoundtripThms

variable {R CR S : Type} [Field R] [DecidableEq R]
variable (tr : TranscriptOps R CR S)
variable (gBuilder : ℕ → List (List (List R → R)) → List R → (List R → R) →
  (List R → R) → List (List R) → List R → List R → (List R → R))
variable (expectedValFn : List R → List R → List (List R) → R → List R →
  List R → List (List R) → R)
variable (fromFHat : List R → List (List R → R))

omit [Field R] [DecidableEq R] in
/-- The four challenge blocks of `squeeze_alpha_beta_zeta_mu` have lengths
`2K`, `log_m`, `2K`, `K`. -/
theorem squeeze_abzm_lengths [CommRing R] (trc : TranscriptOps R CR S)
    (P : DecompositionParams) (n : ℕ) (st : S) :
    (squeeze_alpha_beta_zeta_mu trc P n st).1.1.length = 2 * P.K ∧
    (squeeze_alpha_beta_zeta_mu trc P n st).1.2.1.length = n ∧
    (squeeze_alpha_beta_zeta_mu trc P n st).1.2.2.1.length = 2 * P.K ∧
    (squeeze_alpha_beta_zeta_mu trc P n st).1.2.2.2.length = P.K := by
  simp only [squeeze_alpha_beta_zeta_mu]
  exact ⟨squeezeN_length trc _ _, squeezeN_length trc _ _,
    squeezeN_length trc _ _, squeezeN_length trc _ _⟩

/-- **Folding round-trip (completeness).**  For a CCS passing the sanity
check and `2K` instances with witnesses and `Mz` MLEs that are *consistent* —
the `g` polynomial built by the prover sums over the hypercube to
`claim_g1 + claim_g3`, its round polynomials have degree `≤ 2·B_SMALL`, and
the verifier's expected-evaluation recombination agrees with `g` at every
point (the completeness identities of `create_sumcheck_polynomial` /
`compute_sumcheck_claim_expected_value`) — `verify`, run on the proof that
`prove` produced and from the same initial transcript state, accepts, and the
LCCCS it returns equals the prover's field by field (together with the final
transcript state). -/
theorem folding_prove_verify_roundtrip (P : DecompositionParams) (ccs : CCS)
    (cm_i_s : List (LCCCS R)) (w_s : List (Witness R))
    (mz_mles : List (List (List R → R))) (st : S)
    (hsan : ccs.m = nextPowerOfTwo (max ((ccs.n - ccs.l - 1) * P.L) ccs.m))
    (hlen : cm_i_s.length = 2 * P.K)
    (hmz : mz_mles.length = 2 * P.K)
    (hw : w_s ≠ [])
    (hs : 1 ≤ ccs.s)
    (hB : 1 ≤ P.B_SMALL)
    (hK : 1 ≤ P.K)
    (hcast : Set.InjOn (fun i : ℕ => (i : R)) (Finset.range (2 * P.B_SMALL + 1)))
    (hdeg : ∀ alpha_s beta_s zeta_s mu_s rs : List R, rs.length < ccs.s →
      ∃ p : Polynomial R, p.degree < (2 * P.B_SMALL + 1 : ℕ) ∧ ∀ t : R,
        roundPolyEval ccs.s
          (foldingG gBuilder P ccs w_s mz_mles cm_i_s alpha_s beta_s zeta_s mu_s)
          rs t = p.eval t)
    (hsum : ∀ alpha_s beta_s zeta_s mu_s : List R, alpha_s.length = 2 * P.K →
      zeta_s.length = 2 * P.K →
      sumOverBool ccs.s
          (foldingG gBuilder P ccs w_s mz_mles cm_i_s alpha_s beta_s zeta_s mu_s) =
        (calculate_claims alpha_s zeta_s cm_i_s).1 +
          (calculate_claims alpha_s zeta_s cm_i_s).2)
    (hcompat : ∀ alpha_s beta_s zeta_s mu_s r0 : List R, r0.length = ccs.s →
      expectedValFn alpha_s mu_s
          ((w_s.map Witness.f_hat).map (fun row => row.map (fun mle => mle r0)))
          (eq_eval beta_s r0)
          ((cm_i_s.map LCCCS.r).map (fun ri => eq_eval ri r0))
          zeta_s
          (mz_mles.map (fun row => row.map (fun mle => mle r0))) =
        foldingG gBuilder P ccs w_s mz_mles cm_i_s alpha_s beta_s zeta_s mu_s r0) :
    ∃ (lcccs : LCCCS R) (w0 : Witness R) (prf : FoldingProof R) (stP : S),
      folding_prove tr gBuilder fromFHat P cm_i_s w_s st ccs mz_mles =
        some (.ok (lcccs, w0, prf, stP)) ∧
      folding_verify tr expectedValFn P cm_i_s prf st ccs =
        some (.ok (lcccs, stP)) := by
  have hsanOk : sanity_check (R := R) P ccs = .ok () := by
    unfold sanity_check
    rw [if_neg (not_not_intro hsan)]
  obtain ⟨hA, hBl, hZ, hM⟩ := squeeze_abzm_lengths tr P ccs.s st
  obtain ⟨out, hprove, houtlen, hverify⟩ :=
    sumcheckVerify_complete tr (squeeze_alpha_beta_zeta_mu tr P ccs.s st).2
      ccs.s (2 * P.B_SMALL)
      (foldingG gBuilder P ccs w_s mz_mles cm_i_s
        (squeeze_alpha_beta_zeta_mu tr P ccs.s st).1.1
        (squeeze_alpha_beta_zeta_mu tr P ccs.s st).1.2.1
        (squeeze_alpha_beta_zeta_mu tr P ccs.s st).1.2.2.1
        (squeeze_alpha_beta_zeta_mu tr P ccs.s st).1.2.2.2)
      ((calculate_claims (squeeze_alpha_beta_zeta_mu tr P ccs.s st).1.1
          (squeeze_alpha_beta_zeta_mu tr P ccs.s st).1.2.2.1 cm_i_s).1 +
        (calculate_claims (squeeze_alpha_beta_zeta_mu tr P ccs.s st).1.1
          (squeeze_alpha_beta_zeta_mu tr P ccs.s st).1.2.2.1 cm_i_s).2)
      hs (by omega) hcast
      (fun rs hrs => hdeg _ _ _ _ rs hrs)
      ((hsum _ _ _ _ hA hZ).symm)
  obtain ⟨w0, ws', rfl⟩ : ∃ a l, w_s = a :: l := by
    cases w_s with
    | nil => exact absurd rfl hw
    | cons a l => exact ⟨a, l, rfl⟩
  have hrho : ∀ st' : S, (get_rhos tr P st').1 ≠ [] := by
    intro st' hnil
    have hlenr := squeezeShortN_length tr P.K st'
    rw [show get_rhos tr P st' = squeezeShortN tr P.K st' from rfl] at hnil
    rw [hnil] at hlenr
    simp at hlenr
    omega
  have hcne : cm_i_s ≠ [] := by
    intro hnil
    rw [hnil] at hlen
    simp at hlen
    omega
  have hx0 : (compute_v0_u0_x0_cm_0 tr.crt
      (get_rhos tr P
        ((mz_mles.map (fun row => row.map (fun mle => mle out.2.1))).foldl
          (absorbSlice tr)
          ((((w0 :: ws').map Witness.f_hat).map
            (fun row => row.map (fun mle => mle out.2.1))).foldl
            (absorbSlice tr) out.2.2))).1
      (((w0 :: ws').map Witness.f_hat).map
        (fun row => row.map (fun mle => mle out.2.1)))
      cm_i_s
      (mz_mles.map (fun row => row.map (fun mle => mle out.2.1)))).2.2.2 ≠ [] :=
    x0_ne_nil tr.crt _ _ _ cm_i_s (hrho _) hcne
  obtain ⟨hval, hgl⟩ : ∃ hv, (compute_v0_u0_x0_cm_0 tr.crt
      (get_rhos tr P
        ((mz_mles.map (fun row => row.map (fun mle => mle out.2.1))).foldl
          (absorbSlice tr)
          ((((w0 :: ws').map Witness.f_hat).map
            (fun row => row.map (fun mle => mle out.2.1))).foldl
            (absorbSlice tr) out.2.2))).1
      (((w0 :: ws').map Witness.f_hat).map
        (fun row => row.map (fun mle => mle out.2.1)))
      cm_i_s
      (mz_mles.map (fun row => row.map (fun mle => mle out.2.1)))).2.2.2.getLast?
      = some hv := by
    rcases hgl : (compute_v0_u0_x0_cm_0 tr.crt
        (get_rhos tr P
          ((mz_mles.map (fun row => row.map (fun mle => mle out.2.1))).foldl
            (absorbSlice tr)
            ((((w0 :: ws').map Witness.f_hat).map
              (fun row => row.map (fun mle => mle out.2.1))).foldl
              (absorbSlice tr) out.2.2))).1
        (((w0 :: ws').map Witness.f_hat).map
          (fun row => row.map (fun mle => mle out.2.1)))
        cm_i_s
        (mz_mles.map (fun row => row.map (fun mle => mle out.2.1)))).2.2.2.getLast?
        with _ | hv
    · rw [List.getLast?_eq_none_iff] at hgl
      exact absurd hgl hx0
    · exact ⟨hv, hgl⟩
  refine ⟨?lc, ?w0, ?prf, ?stP, ?h1, ?h2⟩
  case h1 =>
    simp only [folding_prove, hsanOk]
    rw [if_neg (not_not_intro hlen)]
    rw [if_neg (by omega : ¬ mz_mles.length < 2 * P.K)]
    rw [hprove]
    simp only
    rw [hgl]
    exact rfl
  case h2 =>
    simp only [folding_verify, hsanOk]
    rw [hverify]
    dsimp only
    rw [if_neg (not_not_intro (hcompat _ _ _ _ out.2.1 houtlen))]
    rw [hgl]

end RoundtripThms

/-- Witness: the folding round-trip at a concrete instantiation over `ℚ` —
`K = 1` (two instances), a `m = 2, s = 1` CCS, the zero `g` polynomial and
matching zero expected-value recombination. -/
theorem folding_prove_verify_roundtrip_witness :
    ∃ (lcccs : LCCCS ℚ) (w0 : Witness ℚ) (prf : FoldingProof ℚ) (stP : ℕ),
      folding_prove natTranscript zeroGBuilder emptyFromFHat ⟨1, 1, 1, 1⟩
          [defaultLCCCS ℚ, defaultLCCCS ℚ]
          [⟨[0], []⟩, ⟨[0], []⟩] 0 ⟨2, 3, 1, 1⟩ [[], []] =
        some (.ok (lcccs, w0, prf, stP)) ∧
      folding_verify natTranscript zeroExpectedValFn ⟨1, 1, 1, 1⟩
          [defaultLCCCS ℚ, defaultLCCCS ℚ] prf 0 ⟨2, 3, 1, 1⟩ =
        some (.ok (lcccs, stP)) := by
  have hz : ∀ l : List ℚ,
      ((l.zip ([[], []] : List (List ℚ))).map
        (fun p => powSum p.1 p.1 p.2)).sum = 0 := by
    intro l
    match l with
    | [] => rfl
    | [a] => simp [powSum]
    | a :: b :: t => simp [powSum]
  exact folding_prove_verify_roundtrip natTranscript zeroGBuilder
    zeroExpectedValFn emptyFromFHat ⟨1, 1, 1, 1⟩ ⟨2, 3, 1, 1⟩
    [defaultLCCCS ℚ, defaultLCCCS ℚ] [⟨[0], []⟩, ⟨[0], []⟩] [[], []] 0
    (by decide) (by decide) (by decide) (by simp) (by decide) (by decide)
    (by decide)
    (by intro a _ b _ h; exact Nat.cast_injective h)
    (by
      intro alpha_s beta_s zeta_s mu_s rs hrs
      refine ⟨0, by rw [Polynomial.degree_zero]; exact WithBot.bot_lt_coe _,
        fun t => ?_⟩
      have hrs' : rs.length < 1 := hrs
      have hrs0 : rs = [] := List.eq_nil_of_length_eq_zero (by omega)
      subst hrs0
      simp [roundPolyEval, sumOverBool, foldingG, zeroGBuilder])
    (by
      intro alpha_s beta_s zeta_s mu_s h1 h2
      simp only [calculate_claims]
      rw [show ([defaultLCCCS ℚ, defaultLCCCS ℚ].map LCCCS.v) =
        ([[], []] : List (List ℚ)) from rfl]
      rw [show ([defaultLCCCS ℚ, defaultLCCCS ℚ].map LCCCS.u) =
        ([[], []] : List (List ℚ)) from rfl]
      rw [hz alpha_s, hz zeta_s]
      simp [sumOverBool, foldingG, zeroGBuilder])
    (by
      intro alpha_s beta_s zeta_s mu_s r0 h
      simp [foldingG, zeroGBuilder, zeroExpectedValFn])

/-- Witness: `verify` on a single instance (below `2K = 2`) does not raise
`IncorrectLength`. -/
theorem folding_verify_no_2k_check_witness :
    folding_verify natTranscript zeroExpectedValFn ⟨1, 1, 1, 1⟩ [defaultLCCCS ℚ]
      ⟨[], [], []⟩ 0 ⟨2, 3, 1, 1⟩ ≠ some (.error .incorrectLength) :=
  (folding_verify_no_2k_check natTranscript zeroExpectedValFn ⟨1, 1, 1, 1⟩
    ⟨2, 3, 1, 1⟩ [defaultLCCCS ℚ] ⟨[], [], []⟩ 0 (by decide) (by decide)
    (by simp)).1

/-- Witness: the Horner precombination evaluated on one concrete MLE group
over `ℚ`. -/
theorem calculate_challenged_mz_mle_spec_witness :
    calculate_challenged_mz_mle [[(fun _ : List ℚ => (1 : ℚ))]] [(2 : ℚ)] [] =
      ∑ i ∈ Finset.range ([(2 : ℚ)].length),
        ∑ j ∈ Finset.range (([[(fun _ : List ℚ => (1 : ℚ))]].getD i []).length),
          ([(2 : ℚ)].getD i 0) ^ (j + 1) *
            (([[(fun _ : List ℚ => (1 : ℚ))]].getD i []).getD j (fun _ => 0)) [] :=
  calculate_challenged_mz_mle_spec [[(fun _ : List ℚ => (1 : ℚ))]] [(2 : ℚ)]
    (by decide) []

/-- Witness: `calculate_claims` on one concrete instance over `ℚ`. -/
theorem calculate_claims_spec_witness :
    calculate_claims [(2 : ℚ)] [(3 : ℚ)]
        [{ r := [], v := [5], cm := [], u := [7], x_w := [], h := 0 }] =
      (∑ i ∈ Finset.range
          ([({ r := [], v := [5], cm := [], u := [7], x_w := [], h := 0 } :
            LCCCS ℚ)].length),
         ∑ j ∈ Finset.range
            (([({ r := [], v := [5], cm := [], u := [7], x_w := [], h := 0 } :
              LCCCS ℚ)].getD i
              { r := [], v := [], cm := [], u := [], x_w := [], h := 0 }).v.length),
           ([(2 : ℚ)].getD i 0) ^ (j + 1) *
             ([({ r := [], v := [5], cm := [], u := [7], x_w := [], h := 0 } :
               LCCCS ℚ)].getD i
               { r := [], v := [], cm := [], u := [], x_w := [], h := 0 }).v.getD j 0,
       ∑ i ∈ Finset.range
          ([({ r := [], v := [5], cm := [], u := [7], x_w := [], h := 0 } :
            LCCCS ℚ)].length),
         ∑ j ∈ Finset.range
            (([({ r := [], v := [5], cm := [], u := [7], x_w := [], h := 0 } :
              LCCCS ℚ)].getD i
              { r := [], v := [], cm := [], u := [], x_w := [], h := 0 }).u.length),
           ([(3 : ℚ)].getD i 0) ^ (j + 1) *
             ([({ r := [], v := [5], cm := [], u := [7], x_w := [], h := 0 } :
               LCCCS ℚ)].getD i
               { r := [], v := [], cm := [], u := [], x_w := [], h := 0 }).u.getD j 0) :=
  calculate_claims_spec [(2 : ℚ)] [(3 : ℚ)]
    [{ r := [], v := [5], cm := [], u := [7], x_w := [], h := 0 }]
    { r := [], v := [], cm := [], u := [], x_w := [], h := 0 } rfl rfl

end LatticeFold
